import Mathlib

/-!
Shallow embedding of the core of the `solver` repository (a parallel CFR
poker solver) and proofs about its claimed properties.

The embedding translates, over an exact ordered field (ℚ or ℝ in place of
IEEE `float`), the following source functions:

* `DiscountedCfrTrainable` (src/src/trainable/DiscountedCfrTrainable.cpp):
  state vectors, `getcurrentStrategyNoCache`, `getAverageStrategy`,
  `updateRegrets`, `setEv` / `setEquity` (with an explicit NaN model).
* `PCfrSolver` (src/src/solver/PCfrSolver.cpp): `terminalUtility`,
  `showdownUtility` (the two monotone blocker passes), the chance-node
  recursion structure of `chanceUtility`, `findGameSpecificIsomorphisms`
  and the probing schedule of `train`.

Vectors (`std::vector<float>`) are modelled as `List` values read with
`List.getD i 0`, matching in-range indexed access; per-card accumulator
arrays (`vector<float>(52)`) are modelled as functions `ℕ → ℚ` updated
pointwise; 52-bit board masks are `ℕ` bitmasks combined with `|||`/`&&&`.
-/

/-! ### Cards, hands, boards (data model of §3; Card.h / PrivateCards.h) -/

/-- A private hand: two card integers plus a weight
(`PrivateCards` in the source; card encoding: suit = card % 4,
rank = card / 4). -/
structure PrivateCards where
  card1 : ℕ
  card2 : ℕ
  weight : ℚ
deriving DecidableEq

/-- `Card::boardInt2long`: the 52-bit mask with only this card's bit set. -/
def boardInt2long (c : ℕ) : ℕ := 1 <<< c

/-- `Card::boardsHasIntercept`: two board masks share a card. -/
def boardsHasIntercept (a b : ℕ) : Bool := a &&& b ≠ 0

/-- `PrivateCards::toBoardLong`: mask of the hand's two cards. -/
def toBoardLong (h : PrivateCards) : ℕ := boardInt2long h.card1 ||| boardInt2long h.card2

/-- Number of cards in a board mask (`Card::long2board(board).size()`). -/
def boardCardCount (board : ℕ) : ℕ := (Nat.bits board).count true

/-! ### The NaN-aware float model used by `setEv` / `setEquity`

`DiscountedCfrTrainable::setEv` tests `evs[i] == evs[i]`, which is `false`
exactly for IEEE NaN.  We model a float as `Option ℚ` with `none` playing
the role of NaN, and self-equality as `Option.isSome`. -/

/-- A float value: `none` models NaN, `some q` an ordinary value. -/
abbrev FloatVal := Option ℚ

/-- The self-equality test `x == x` of the source: true iff not NaN. -/
def floatSelfEq (x : FloatVal) : Bool := x.isSome

/-- `DiscountedCfrTrainable::setEv`: throws on length mismatch, otherwise
overwrites entry `i` with the input when the input is not NaN and keeps
the stored entry when the input is NaN. -/
def setEv (stored input : List FloatVal) : Except String (List FloatVal) :=
  if input.length ≠ stored.length then
    Except.error "size mismatch in discountcfrtrainable setEV"
  else
    Except.ok ((List.range stored.length).map (fun i =>
      if floatSelfEq (input.getD i none) then input.getD i none else stored.getD i none))

/-- `DiscountedCfrTrainable::setEquity`: identical logic to `setEv`. -/
def setEquity (stored input : List FloatVal) : Except String (List FloatVal) :=
  if input.length ≠ stored.length then
    Except.error "size mismatch in discountcfrtrainable setEquity"
  else
    Except.ok ((List.range stored.length).map (fun i =>
      if floatSelfEq (input.getD i none) then input.getD i none else stored.getD i none))

/-- Whether an `Except` result is an error (a thrown exception). -/
def exceptIsError : Except String (List FloatVal) → Bool
  | Except.error _ => true
  | Except.ok _ => false

/-! ### The Discounted-CFR trainable (DiscountedCfrTrainable.cpp)

The numeric state is generic over a linear ordered field `K` (the source
uses `float`; `K = ℝ` is its exact idealization and `K = ℚ` is used to
evaluate witnesses). -/

/-- State of one `DiscountedCfrTrainable`, all vectors stored flat
action-major (`index = action_id * card_number + private_id`). -/
structure DcfrState (K : Type) where
  action_number : ℕ
  card_number : ℕ
  r_plus : List K
  r_plus_sum : List K
  cum_r_plus : List K
  evs : List K
  equities : List K

/-- The constructor `DiscountedCfrTrainable(...)`: all vectors zero. -/
def initState (K : Type) [LinearOrderedField K] (A H : ℕ) : DcfrState K :=
  { action_number := A
    card_number := H
    r_plus := List.replicate (A * H) 0
    r_plus_sum := List.replicate H 0
    cum_r_plus := List.replicate (A * H) 0
    evs := List.replicate (A * H) 0
    equities := List.replicate (A * H) 0 }

/-- `DiscountedCfrTrainable::getcurrentStrategyNoCache`: per hand `h`,
`max(0, r_plus[a,h]) / r_plus_sum[h]` when `r_plus_sum[h] ≠ 0`, else the
uniform `1 / action_number`.  The flat index `i` decodes as
`private_id = i % card_number`. -/
def getcurrentStrategyNoCache {K : Type} [LinearOrderedField K] (st : DcfrState K) : List K :=
  if st.r_plus_sum.isEmpty then
    List.replicate (st.action_number * st.card_number) (1 / (st.action_number : K))
  else
    (List.range (st.action_number * st.card_number)).map (fun index =>
      if st.r_plus_sum.getD (index % st.card_number) 0 ≠ 0 then
        max 0 (st.r_plus.getD index 0) / st.r_plus_sum.getD (index % st.card_number) 0
      else 1 / (st.action_number : K))

/-- `DiscountedCfrTrainable::getAverageStrategy`: per hand `h`, the sum
`S = Σ_a cum_r_plus[a,h]`; entry `cum_r_plus[a,h] / S` when `S ≠ 0`
(the source's `if(r_plus_sum)` truthiness test), else uniform. -/
def getAverageStrategy {K : Type} [LinearOrderedField K] (st : DcfrState K) : List K :=
  (List.range (st.action_number * st.card_number)).map (fun index =>
    let s := ∑ a ∈ Finset.range st.action_number,
      st.cum_r_plus.getD (a * st.card_number + index % st.card_number) 0
    if s ≠ 0 then st.cum_r_plus.getD index 0 / s else 1 / (st.action_number : K))

/-- Body of `DiscountedCfrTrainable::updateRegrets` after the two scalar
coefficients have been computed (the source computes `alpha_coef` from
`iteration_number` and `strategy_coef` after the regret loop; `beta` and
`theta` are the object's constants):
1. `r_plus[i] = regrets[i] + r_plus[i]`, then `*= alpha_coef` when
   positive, else `*= beta`;
2. `r_plus_sum[h] = Σ_a max(0, r_plus[a,h])` (reset then accumulated);
3. the fresh current strategy is read off the updated state;
4. `cum_r_plus[i] = cum_r_plus[i] * theta + strategy[i] * strategy_coef`. -/
def updateRegretsCore {K : Type} [LinearOrderedField K] (st : DcfrState K)
    (regrets : List K) (alpha_coef beta theta strategy_coef : K) : DcfrState K :=
  let A := st.action_number
  let H := st.card_number
  let new_r_plus := (List.range (A * H)).map (fun index =>
    let v := regrets.getD index 0 + st.r_plus.getD index 0
    if 0 < v then v * alpha_coef else v * beta)
  let new_r_plus_sum := (List.range H).map (fun h =>
    ∑ a ∈ Finset.range A, max 0 (new_r_plus.getD (a * H + h) 0))
  let stMid : DcfrState K := { st with r_plus := new_r_plus, r_plus_sum := new_r_plus_sum }
  let strategy := getcurrentStrategyNoCache stMid
  let new_cum := (List.range (A * H)).map (fun index =>
    st.cum_r_plus.getD index 0 * theta + strategy.getD index 0 * strategy_coef)
  { stMid with cum_r_plus := new_cum }

/-- Modelled from the spec: the DCFR constants `alpha`, `beta`, `gamma`,
`theta` are fields of `DiscountedCfrTrainable` declared in its header,
which is not under `src/`; the spec gives their values as
(α=1.5, β=0, γ=2, θ=1). -/
def dcfr_alpha : ℝ := 1.5

/-- Modelled from the spec: DCFR constant β = 0 (see `dcfr_alpha`). -/
def dcfr_beta : ℝ := 0

/-- Modelled from the spec: DCFR constant γ = 2 (see `dcfr_alpha`). -/
def dcfr_gamma : ℝ := 2

/-- Modelled from the spec: DCFR constant θ = 1 (see `dcfr_alpha`). -/
def dcfr_theta : ℝ := 1

/-- The discount coefficient computed at the top of `updateRegrets`:
`alpha_coef = pow(iteration_number, alpha); alpha_coef / (1 + alpha_coef)`. -/
noncomputable def dcfrAlphaCoef (iteration_number : ℕ) : ℝ :=
  (iteration_number : ℝ) ^ dcfr_alpha / (1 + (iteration_number : ℝ) ^ dcfr_alpha)

/-- The cumulative-strategy weight computed in `updateRegrets`:
`strategy_coef = pow(iteration_number / (iteration_number + 1), gamma)`. -/
noncomputable def dcfrStrategyCoef (iteration_number : ℕ) : ℝ :=
  ((iteration_number : ℝ) / ((iteration_number : ℝ) + 1)) ^ dcfr_gamma

/-- `DiscountedCfrTrainable::updateRegrets(regrets, iteration_number, _)`,
over ℝ, with the source's coefficient computations inlined. -/
noncomputable def updateRegrets (st : DcfrState ℝ) (regrets : List ℝ)
    (iteration_number : ℕ) : DcfrState ℝ :=
  updateRegretsCore st regrets (dcfrAlphaCoef iteration_number) dcfr_beta dcfr_theta
    (dcfrStrategyCoef iteration_number)

/-- The scenario of the spec's Discounted-CFR schedule test: a one-action,
one-hand trainable driven by a constant regret of `1.0`, with
`updateRegrets` called with iteration numbers `1, 2, …, t`. -/
noncomputable def drivenState : ℕ → DcfrState ℝ
  | 0 => initState ℝ 1 1
  | t + 1 => updateRegrets (drivenState t) [1] (t + 1)

/-! ### Terminal (fold) nodes: `PCfrSolver::terminalUtility`

The loop over opponent hands accumulates `oppo_sum` and the per-card
array `oppo_card_sum`; hands are paired with their reach probabilities. -/

/-- Modelled from the spec: `PrivateCardsManager::indPlayer2Player`
(`PrivateCardsManager` is not under `src/`) — the index of the identical
hand in the other player's range, or none when absent. -/
def indPlayer2Player (fromRange toRange : List PrivateCards) (i : ℕ) : Option ℕ :=
  let h := fromRange.getD i ⟨0, 0, 0⟩
  toRange.findIdx? (fun o => o.card1 == h.card1 && o.card2 == h.card2)

/-- The `plus_reach_prob` correction of `terminalUtility`: the reach of
the identical hand in the opponent's range, 0 when absent (`-1` index). -/
def plusReachProb (o : Option ℕ) (reach : List ℚ) : ℚ :=
  match o with
  | none => 0
  | some j => reach.getD j 0

/-- `oppo_sum`: total opponent reach (the loop reads `reach_prob[i]` for
each index of the opponent's hand list). -/
def oppoSum (oppoRange : List PrivateCards) (reach : List ℚ) : ℚ :=
  ((oppoRange.zip reach).map (fun p => p.2)).sum

/-- `oppo_card_sum[c]`: reach mass of opponent hands whose first or second
card is `c` (each hand adds its reach to both of its cards' entries). -/
def oppoCardSum (oppoRange : List PrivateCards) (reach : List ℚ) (c : ℕ) : ℚ :=
  ((oppoRange.zip reach).map (fun p =>
    (if p.1.card1 = c then p.2 else 0) + (if p.1.card2 = c then p.2 else 0))).sum

/-- `PCfrSolver::terminalUtility`: for each player hand not overlapping the
board, `payoffs[i] = player_payoff * (oppo_sum − oppo_card_sum[c1]
− oppo_card_sum[c2] + plus_reach_prob)`; board-overlapping hands keep the
zero-initialized entry. -/
def terminalUtility (player_payoff : ℚ) (playerRange oppoRange : List PrivateCards)
    (reach : List ℚ) (current_board : ℕ) : List ℚ :=
  (List.range playerRange.length).map (fun i =>
    let h := playerRange.getD i ⟨0, 0, 0⟩
    if boardsHasIntercept current_board (toBoardLong h) then 0
    else
      let plus_reach_prob := plusReachProb (indPlayer2Player playerRange oppoRange i) reach
      player_payoff * (oppoSum oppoRange reach - oppoCardSum oppoRange reach h.card1
        - oppoCardSum oppoRange reach h.card2 + plus_reach_prob))

/-! ### Showdown nodes: `PCfrSolver::showdownUtility`

`RiverCombs` entries come from the external `RiverRangeManager`, sorted so
that the two monotone pointer passes are over rank-sorted lists (lower
rank = stronger hand; the win pass walks hands from weakest to strongest,
so the lists are sorted by rank descending). -/

/-- One river combo: hand rank, the hand's two cards, and the index of the
hand in its player's range (`RiverCombs` in the source). -/
structure RiverCombs where
  rank : ℕ
  card1 : ℕ
  card2 : ℕ
  reach_prob_index : ℕ
deriving DecidableEq

/-- The reach probability of a combo (`reach_probs[comb.reach_prob_index]`). -/
def reachOf (reach : List ℚ) (o : RiverCombs) : ℚ := reach.getD o.reach_prob_index 0

/-- Total reach of a list of combos. -/
def sumReach (reach : List ℚ) (l : List RiverCombs) : ℚ := (l.map (reachOf reach)).sum

/-- Per-card reach of a list of combos: each combo adds its reach once for
each of its cards equal to `c` (the `card_winsum[card1] += …;
card_winsum[card2] += …` accumulation, viewed at card `c`). -/
def sumCard (reach : List ℚ) (l : List RiverCombs) (c : ℕ) : ℚ :=
  (l.map (fun o =>
    (if o.card1 = c then reachOf reach o else 0) +
    (if o.card2 = c then reachOf reach o else 0))).sum

/-- The inner `while` of a showdown pass: consume opponent combos while
`pred` holds, accumulating the running sum and the per-card array; returns
the remaining combos and the updated accumulators. -/
def advancePtr (reach : List ℚ) (pred : RiverCombs → Bool) :
    List RiverCombs → ℚ → (ℕ → ℚ) → List RiverCombs × ℚ × (ℕ → ℚ)
  | [], w, cw => ([], w, cw)
  | o :: os, w, cw =>
    if pred o then
      advancePtr reach pred os (w + reachOf reach o)
        (fun c => cw c + (if o.card1 = c then reachOf reach o else 0) +
          (if o.card2 = c then reachOf reach o else 0))
    else (o :: os, w, cw)

/-- The first (win) pass of `showdownUtility`: for each player combo, the
pointer advances over opponent combos of strictly larger rank; then
`payoffs[p.reach_prob_index] = (winsum − card_winsum[c1] − card_winsum[c2])
* win_payoff`. -/
def winPassGo (win_payoff : ℚ) (reach : List ℚ) :
    List RiverCombs → List RiverCombs → ℚ → (ℕ → ℚ) → (ℕ → ℚ) → (ℕ → ℚ)
  | [], _, _, _, payoffs => payoffs
  | p :: ps, os, w, cw, payoffs =>
    let adv := advancePtr reach (fun o => p.rank < o.rank) os w cw
    winPassGo win_payoff reach ps adv.1 adv.2.1 adv.2.2
      (Function.update payoffs p.reach_prob_index
        ((adv.2.1 - adv.2.2 p.card1 - adv.2.2 p.card2) * win_payoff))

/-- The second (loss) pass of `showdownUtility`, which walks both sorted
lists backwards: for each player combo, the pointer advances over opponent
combos of strictly smaller rank; then `payoffs[p.reach_prob_index] +=
(losssum − card_losssum[c1] − card_losssum[c2]) * lose_payoff`. -/
def lossPassGo (lose_payoff : ℚ) (reach : List ℚ) :
    List RiverCombs → List RiverCombs → ℚ → (ℕ → ℚ) → (ℕ → ℚ) → (ℕ → ℚ)
  | [], _, _, _, payoffs => payoffs
  | p :: ps, os, w, cw, payoffs =>
    let adv := advancePtr reach (fun o => o.rank < p.rank) os w cw
    lossPassGo lose_payoff reach ps adv.1 adv.2.1 adv.2.2
      (Function.update payoffs p.reach_prob_index
        (payoffs p.reach_prob_index +
          (adv.2.1 - adv.2.2 p.card1 - adv.2.2 p.card2) * lose_payoff))

/-- `PCfrSolver::showdownUtility`: zero-initialized payoffs, the win pass
forward over both rank-sorted lists, then the loss pass backwards over
both (modelled as a forward pass over the reversed lists). -/
def showdownUtility (win_payoff lose_payoff : ℚ) (player_combs oppo_combs : List RiverCombs)
    (reach : List ℚ) : ℕ → ℚ :=
  lossPassGo lose_payoff reach player_combs.reverse oppo_combs.reverse 0 (fun _ => 0)
    (winPassGo win_payoff reach player_combs oppo_combs 0 (fun _ => 0) (fun _ => 0))

/-! ### Chance nodes: the recursion structure of `PCfrSolver::chanceUtility` -/

/-- `possible_deals = node->getCards().size() − |current board cards| − 2`
(the node's card list is the remaining deck). -/
def possibleDeals (cards : List ℕ) (current_board : ℕ) : ℤ :=
  (cards.length : ℤ) - (boardCardCount current_board : ℤ) - 2

/-- The `new_deal` encoding of `chanceUtility` (§3 abstract deal ids):
`card + 1` from the root, `card_num * (deal − 1) + card + 1 + card_num`
after one dealt card, and a thrown error otherwise. -/
def newDealOf (deal card_num card : ℕ) : Except String ℕ :=
  if deal = 0 then Except.ok (card + 1)
  else if 0 < deal ∧ deal ≤ card_num then
    Except.ok (card_num * (deal - 1) + card + 1 + card_num)
  else Except.error "deal out of range"

/-- One recursive call dispatched by `chanceUtility`. -/
structure ChanceCall where
  card_index : ℕ
  new_board : ℕ
  new_reach : List ℚ
  new_deal : Except String ℕ

/-- The recursive calls dispatched by `chanceUtility`: the `valid_cards`
filter (skip cards already on the board; during warmup, skip cards whose
per-rank multiplier is zero; skip suits with a negative isomorphism
offset), each valid card recursing on `current_board | card_long` with the
opponent reach zeroed on colliding hands and divided by `possible_deals`
otherwise.  The warmup multiplier (a per-card count drawn with
`std::rand`) is a parameter. -/
def chanceCalls (cards : List ℕ) (current_board : ℕ) (iter warmup : ℕ)
    (multiplier : ℕ → ℕ) (iso_offset : ℕ → ℤ) (oppoRange : List PrivateCards)
    (reach : List ℚ) (deal : ℕ) : List ChanceCall :=
  ((List.range cards.length).filter (fun card =>
    let card_long := boardInt2long (cards.getD card 0)
    !(boardsHasIntercept card_long current_board) &&
    !(iter ≤ warmup && multiplier card == 0) &&
    !(iso_offset (cards.getD card 0 % 4) < 0))).map (fun card =>
      let card_long := boardInt2long (cards.getD card 0)
      { card_index := card
        new_board := current_board ||| card_long
        new_reach := (List.range oppoRange.length).map (fun player_hand =>
          if boardsHasIntercept card_long (toBoardLong (oppoRange.getD player_hand ⟨0, 0, 0⟩))
          then 0
          else reach.getD player_hand 0 / (possibleDeals cards current_board : ℚ))
        new_deal := newDealOf deal cards.length card })

/-! ### Suit isomorphisms: `PCfrSolver::findGameSpecificIsomorphisms` -/

/-- The per-suit board hash: for suit `s`, the bitmask of ranks of board
cards of suit `s` (the source's `color_hash[card % 4] |= 1 << (card / 4)`
accumulation, read at suit `s`). -/
def colorHash (board_cards : List ℕ) (s : ℕ) : ℕ :=
  board_cards.foldl (fun acc c => if c % 4 = s then acc ||| (1 <<< (c / 4)) else acc) 0

/-- One row of the offset table: for suit `i`, scan suits `j < i` in
ascending order and record `j − i` for every `j` with an equal hash; the
loop body ends in `continue`, so the last matching `j` wins. -/
def isoOffsetRow (hash : ℕ → ℕ) (i : ℕ) : ℤ :=
  (List.range i).foldl (fun acc j => if hash i = hash j then (j : ℤ) - (i : ℤ) else acc) 0

/-- `color_iso_offset[deal][suit]`: deal 0 uses the initial board's hash;
deal `d + 1` augments the board with deck card `d`. -/
def colorIsoOffset (board_cards deck : List ℕ) (deal s : ℕ) : ℤ :=
  if deal = 0 then isoOffsetRow (colorHash board_cards) s
  else isoOffsetRow (colorHash (board_cards ++ [deck.getD (deal - 1) 0])) s

/-! ### The driver loop: `PCfrSolver::train`

Only the probing schedule matters to the claims: per iteration `i` the
loop runs CFR for both players, then probes exploitability (and writes the
optional log line) when `i % print_interval == 0 && i != 0 && i >=
warmup`, breaking out as soon as a probe is `≤ accuracy`.  The
exploitability reported at iteration `i` is an oracle parameter `e`. -/

/-- The gate guarding the exploitability probe in `train`. -/
def probeGate (print_interval warmup i : ℕ) : Bool :=
  i % print_interval == 0 && i != 0 && warmup ≤ i

/-- The iterations of `for(i = 0; i < N; i++)` at which the probe fires,
in order, stopping (the `break`) after the first probe `≤ accuracy`. -/
def trainLoopGo (print_interval warmup : ℕ) (e : ℕ → ℚ) (accuracy : ℚ) :
    ℕ → ℕ → List ℕ
  | 0, _ => []
  | fuel + 1, i =>
    if probeGate print_interval warmup i then
      if e i ≤ accuracy then [i]
      else i :: trainLoopGo print_interval warmup e accuracy fuel (i + 1)
    else trainLoopGo print_interval warmup e accuracy fuel (i + 1)

/-- The probe schedule of `train` with `iteration_number = N`. -/
def trainProbes (N print_interval warmup : ℕ) (e : ℕ → ℚ) (accuracy : ℚ) : List ℕ :=
  trainLoopGo print_interval warmup e accuracy N 0

/-! ### Helper lemmas on list indexing -/

/-- Reading a mapped range at an in-range index. -/
theorem getD_range_map {α : Type} (f : ℕ → α) (d : α) {n i : ℕ} (h : i < n) :
    ((List.range n).map f).getD i d = f i := by
  rw [List.getD_eq_getElem?_getD, List.getElem?_map, List.getElem?_range h]; rfl

/-- Reading a replicated list at an in-range index. -/
theorem getD_replicate {α : Type} (x d : α) {n i : ℕ} (h : i < n) :
    (List.replicate n x).getD i d = x := by
  rw [List.getD_eq_getElem?_getD, List.getElem?_replicate, if_pos h]; rfl

/-- The flat action-major index is in range. -/
theorem flat_index_lt {a h A H : ℕ} (ha : a < A) (hh : h < H) : a * H + h < A * H := by
  have h1 : (a + 1) * H = a * H + H := by ring
  exact lt_of_lt_of_le (by omega) (h1 ▸ Nat.mul_le_mul_right H ha)

/-- Decoding the hand component of a flat action-major index. -/
theorem flat_index_mod {a h H : ℕ} (hh : h < H) : (a * H + h) % H = h := by
  rw [Nat.add_comm, Nat.add_mul_mod_self_right, Nat.mod_eq_of_lt hh]

/-! ### C10: `setEv` / `setEquity` length guard and NaN filtering -/

/-- C10: `setEv` (and likewise `setEquity`) throws exactly when the input
length differs from `A·H`; on success each entry is overwritten by the
input value when it is not NaN and kept otherwise, so NaN (`none`) never
enters through these setters. -/
theorem claim_C10 (A H : ℕ) (stored input : List FloatVal)
    (hlen : stored.length = A * H) :
    ((exceptIsError (setEv stored input) = true ↔ input.length ≠ A * H) ∧
     (exceptIsError (setEquity stored input) = true ↔ input.length ≠ A * H)) ∧
    (∀ out : List FloatVal,
      (setEv stored input = Except.ok out ∨ setEquity stored input = Except.ok out) →
      ∀ i, i < A * H →
        (floatSelfEq (input.getD i none) = true → out.getD i none = input.getD i none) ∧
        (floatSelfEq (input.getD i none) = false → out.getD i none = stored.getD i none) ∧
        (out.getD i none = none → stored.getD i none = none)) := by
  rw [← hlen]
  constructor
  · constructor
    · by_cases hc : input.length = stored.length
      · simp [setEv, hc, exceptIsError]
      · simp [setEv, hc, exceptIsError]
    · by_cases hc : input.length = stored.length
      · simp [setEquity, hc, exceptIsError]
      · simp [setEquity, hc, exceptIsError]
  · intro out hout i hi
    have hrep : out = (List.range stored.length).map (fun i =>
        if floatSelfEq (input.getD i none) then input.getD i none else stored.getD i none) := by
      by_cases hc : input.length = stored.length
      · rcases hout with hout | hout
        · rw [setEv, if_neg (by simpa using hc)] at hout
          exact (Except.ok.inj hout).symm
        · rw [setEquity, if_neg (by simpa using hc)] at hout
          exact (Except.ok.inj hout).symm
      · rcases hout with hout | hout
        · rw [setEv, if_pos (by simpa using hc)] at hout; cases hout
        · rw [setEquity, if_pos (by simpa using hc)] at hout; cases hout
    subst hrep
    rw [getD_range_map _ _ hi]
    refine ⟨fun hs => by rw [if_pos hs],
      fun hs => by rw [if_neg (by rw [hs]; exact Bool.false_ne_true)], ?_⟩
    intro hnone
    by_cases hs : floatSelfEq (input.getD i none) = true
    · rw [if_pos hs] at hnone
      exact absurd (hnone ▸ hs) (by simp [floatSelfEq])
    · rwa [if_neg hs] at hnone

/-- Witness for C10 at a concrete state: `A·H = 2`, a NaN in slot 0 keeps
the stored value, a number in slot 1 overwrites it. -/
theorem claim_C10_witness :
    ([some (1:ℚ), some 2].length = 2 * 1) ∧
    ((exceptIsError (setEv [some (1:ℚ), some 2] [none, some 5]) = true ↔
        ([none, some (5:ℚ)] : List FloatVal).length ≠ 2 * 1)) := by
  refine ⟨by decide, ?_⟩
  exact ((claim_C10 2 1 [some 1, some 2] [none, some 5] (by decide)).1).1

/-! ### C6: `getAverageStrategy` normalization -/

/-- C6: with nonnegative `cum_r_plus` (as produced by the DCFR update),
for every hand `h`: when `S = Σ_a cum_r_plus[a,h]` is positive the average
strategy is `cum_r_plus[a,h] / S`, which sums to 1 over actions; otherwise
it is exactly `1 / action_number` for every action. -/
theorem claim_C6 {K : Type} [LinearOrderedField K] (st : DcfrState K) (h : ℕ)
    (hh : h < st.card_number)
    (hnn : ∀ i, i < st.action_number * st.card_number → 0 ≤ st.cum_r_plus.getD i 0) :
    ((0 < ∑ a ∈ Finset.range st.action_number,
        st.cum_r_plus.getD (a * st.card_number + h) 0 →
      (∀ a, a < st.action_number →
        (getAverageStrategy st).getD (a * st.card_number + h) 0 =
          st.cum_r_plus.getD (a * st.card_number + h) 0 /
            ∑ a' ∈ Finset.range st.action_number,
              st.cum_r_plus.getD (a' * st.card_number + h) 0) ∧
      ∑ a ∈ Finset.range st.action_number,
        (getAverageStrategy st).getD (a * st.card_number + h) 0 = 1)) ∧
    (¬ 0 < ∑ a ∈ Finset.range st.action_number,
        st.cum_r_plus.getD (a * st.card_number + h) 0 →
      ∀ a, a < st.action_number →
        (getAverageStrategy st).getD (a * st.card_number + h) 0 =
          1 / (st.action_number : K)) := by
  set A := st.action_number with hA
  set H := st.card_number with hH
  have hentry : ∀ a, a < A →
      (getAverageStrategy st).getD (a * H + h) 0 =
        (if (∑ a' ∈ Finset.range A, st.cum_r_plus.getD (a' * H + h) 0) ≠ 0 then
          st.cum_r_plus.getD (a * H + h) 0 /
            ∑ a' ∈ Finset.range A, st.cum_r_plus.getD (a' * H + h) 0
        else 1 / (A : K)) := by
    intro a ha
    rw [getAverageStrategy, getD_range_map _ _ (flat_index_lt ha hh), flat_index_mod hh]
  constructor
  · intro hpos
    have hne : (∑ a' ∈ Finset.range A, st.cum_r_plus.getD (a' * H + h) 0) ≠ 0 :=
      ne_of_gt hpos
    constructor
    · intro a ha
      rw [hentry a ha, if_pos hne]
    · have : ∀ a ∈ Finset.range A,
          (getAverageStrategy st).getD (a * H + h) 0 =
            st.cum_r_plus.getD (a * H + h) 0 /
              ∑ a' ∈ Finset.range A, st.cum_r_plus.getD (a' * H + h) 0 := by
        intro a ha
        rw [hentry a (Finset.mem_range.mp ha), if_pos hne]
      rw [Finset.sum_congr rfl this, ← Finset.sum_div, div_self hne]
  · intro hnpos
    have hzero : (∑ a' ∈ Finset.range A, st.cum_r_plus.getD (a' * H + h) 0) = 0 := by
      rcases lt_or_eq_of_le (Finset.sum_nonneg (fun a ha =>
        hnn _ (flat_index_lt (Finset.mem_range.mp ha) hh))) with hlt | heq
      · exact absurd hlt hnpos
      · exact heq.symm
    intro a ha
    rw [hentry a ha, if_neg (by rw [hzero]; exact fun hc => hc rfl)]

/-- Witness for C6 at a concrete rational state (two actions, one hand,
`cum_r_plus = [1, 3]`). -/
theorem claim_C6_witness :
    (getAverageStrategy (⟨2, 1, [], [], [1, 3], [], []⟩ : DcfrState ℚ)).getD 0 0 = 1 / 4 := by
  have h := claim_C6 (⟨2, 1, [], [], [1, 3], [], []⟩ : DcfrState ℚ) 0 (by decide)
    (by intro i hi; interval_cases i <;> norm_num)
  have h2 := (h.1 (by norm_num [Finset.sum_range_succ])).1 0 (by decide)
  rw [show (0 : ℕ) * 1 + 0 = 0 from rfl] at h2
  rw [h2]
  norm_num [Finset.sum_range_succ]

/-! ### C9: the probing schedule of `train` -/

/-- Membership characterization of the probe loop, generalized over the
starting iteration. -/
theorem trainLoopGo_mem (print_interval warmup : ℕ) (e : ℕ → ℚ) (accuracy : ℚ) :
    ∀ (fuel start i : ℕ),
      i ∈ trainLoopGo print_interval warmup e accuracy fuel start ↔
        (start ≤ i ∧ i < start + fuel ∧ probeGate print_interval warmup i = true ∧
          ∀ j, start ≤ j → j < i → probeGate print_interval warmup j = true →
            accuracy < e j) := by
  intro fuel
  induction fuel with
  | zero => intro start i; simp [trainLoopGo]; omega
  | succ n ih =>
    intro start i
    rw [trainLoopGo]
    by_cases hg : probeGate print_interval warmup start = true
    · rw [if_pos hg]
      by_cases hacc : e start ≤ accuracy
      · rw [if_pos hacc]
        simp only [List.mem_singleton]
        constructor
        · rintro rfl
          exact ⟨le_refl _, by omega, hg, fun j h1 h2 => by omega⟩
        · rintro ⟨h1, _, hgate, hall⟩
          by_contra hne
          have hlt : start < i := lt_of_le_of_ne h1 (fun hc => hne hc.symm)
          exact absurd hacc (not_le.mpr (hall start (le_refl _) hlt hg))
      · rw [if_neg hacc]
        simp only [List.mem_cons, ih (start + 1) i]
        constructor
        · rintro (rfl | ⟨h1, h2, hgate, hall⟩)
          · exact ⟨le_refl _, by omega, hg, fun j h1 h2 => by omega⟩
          · refine ⟨by omega, by omega, hgate, fun j hj1 hj2 hjg => ?_⟩
            rcases Nat.eq_or_lt_of_le hj1 with rfl | hj1'
            · exact lt_of_not_le hacc
            · exact hall j (by omega) hj2 hjg
        · rintro ⟨h1, h2, hgate, hall⟩
          rcases Nat.eq_or_lt_of_le h1 with rfl | h1'
          · exact Or.inl rfl
          · exact Or.inr ⟨by omega, by omega, hgate,
              fun j hj1 hj2 hjg => hall j (by omega) hj2 hjg⟩
    · rw [if_neg hg]
      rw [ih (start + 1) i]
      constructor
      · rintro ⟨h1, h2, hgate, hall⟩
        refine ⟨by omega, by omega, hgate, fun j hj1 hj2 hjg => ?_⟩
        rcases Nat.eq_or_lt_of_le hj1 with rfl | hj1'
        · exact absurd hjg (by simp [hg])
        · exact hall j (by omega) hj2 hjg
      · rintro ⟨h1, h2, hgate, hall⟩
        have h1' : start + 1 ≤ i := by
          rcases Nat.eq_or_lt_of_le h1 with rfl | h1'
          · exact absurd hgate (by simp [hg])
          · omega
        exact ⟨h1', by omega, hgate, fun j hj1 hj2 hjg => hall j (by omega) hj2 hjg⟩

/-- C9 (amended): in `train`, the exploitability probe (with its optional
log write) fires at exactly the iterations `i < N` with
`i % print_interval == 0 && i != 0 && i >= warmup` that are not preceded
by a probe reporting exploitability `≤ accuracy`; the loop breaks at the
first probe `≤ accuracy`. -/
theorem claim_C9 (N print_interval warmup : ℕ) (e : ℕ → ℚ) (accuracy : ℚ) (i : ℕ) :
    i ∈ trainProbes N print_interval warmup e accuracy ↔
      (i < N ∧ i % print_interval = 0 ∧ i ≠ 0 ∧ warmup ≤ i ∧
        ∀ j, j < i → (j % print_interval = 0 ∧ j ≠ 0 ∧ warmup ≤ j) →
          accuracy < e j) := by
  rw [trainProbes, trainLoopGo_mem]
  have hgate : ∀ k, probeGate print_interval warmup k = true ↔
      (k % print_interval = 0 ∧ k ≠ 0 ∧ warmup ≤ k) := by
    intro k
    simp [probeGate, Bool.and_eq_true, beq_iff_eq, bne_iff_ne, decide_eq_true_eq,
      and_assoc]
  constructor
  · rintro ⟨_, h2, hg, hall⟩
    obtain ⟨hp1, hp2, hp3⟩ := (hgate i).mp hg
    exact ⟨by omega, hp1, hp2, hp3,
      fun j hj hjc => hall j (Nat.zero_le _) hj ((hgate j).mpr hjc)⟩
  · rintro ⟨h1, hp1, hp2, hp3, hall⟩
    exact ⟨Nat.zero_le _, by omega, (hgate i).mpr ⟨hp1, hp2, hp3⟩,
      fun j _ hj hjg => hall j hj ((hgate j).mp hjg)⟩

/-- Counterexample to C9 as stated: with `warmup = 5`,
`print_interval = 5`, 6 iterations and exploitability constantly above
accuracy, the code probes at iteration 5 — an iteration with
`iter = warmup`, not `iter > warmup` as the claim requires. -/
theorem claim_C9_counterexample :
    5 ∈ trainProbes 6 5 5 (fun _ => 1) 0 ∧ ¬ 5 > 5 := by
  constructor
  · decide
  · omega

/-- Witness for C9 at a concrete schedule: iteration 10 is probed when
`N = 20`, `print_interval = 5`, `warmup = 3` and every probe stays above
accuracy. -/
theorem claim_C9_witness :
    10 ∈ trainProbes 20 5 3 (fun _ => 1) 0 := by
  rw [claim_C9]
  refine ⟨by omega, by omega, by omega, by omega, fun j hj hjc => ?_⟩
  decide

/-! ### C7: `findGameSpecificIsomorphisms` offset table -/

/-- Evaluation of the offset table at a concrete failing input for C7:
with a single board card `2` (rank 0, suit 2), suits 0, 1 and 3 all carry
an empty rank set, so they are mutually equivalent.  The first equivalent
suit below 3 (ascending) is 0 — the spec's tie-break — which would give
offset `0 − 3 = −3`; the code's matching loop ends each iteration with
`continue` rather than `break`, so the last equivalent suit wins and the
stored offset is `−2`.  The reuse target `3 + (−2) = 1` is itself
non-canonical (offset `−1 < 0`), i.e. a chance branch the engine skips. -/
theorem claim_C7_eval :
    colorIsoOffset [2] [] 0 3 = -2 ∧
    colorHash [2] 0 = colorHash [2] 3 ∧
    colorHash [2] 1 = colorHash [2] 3 ∧
    colorHash [2] 2 ≠ colorHash [2] 3 ∧
    (-3 : ℤ) ≠ -2 ∧
    colorIsoOffset [2] [] 0 1 = -1 := by
  refine ⟨by decide, by decide, by decide, by decide, by decide, by decide⟩

/-! ### C4: the recursion structure of `chanceUtility` -/

/-- C4: `chanceUtility` recurses exactly on the card indices that are not
on the current board, have a non-negative suit isomorphism offset, and
(during warmup, `iter ≤ warmup`) a nonzero multiplier; each call uses
`new_board = current_board | bit(c)` and an opponent reach vector that is
zero on hands overlapping `c` and `reach / possible_deals` elsewhere, with
`possible_deals = |deck| − |board cards| − 2`. -/
theorem claim_C4 (cards : List ℕ) (current_board : ℕ) (iter warmup : ℕ)
    (multiplier : ℕ → ℕ) (iso_offset : ℕ → ℤ) (oppoRange : List PrivateCards)
    (reach : List ℚ) (deal : ℕ) :
    (∀ i : ℕ,
      (∃ cl ∈ chanceCalls cards current_board iter warmup multiplier iso_offset
          oppoRange reach deal, cl.card_index = i) ↔
        (i < cards.length ∧
         boardsHasIntercept (boardInt2long (cards.getD i 0)) current_board = false ∧
         (iter ≤ warmup → multiplier i ≠ 0) ∧
         0 ≤ iso_offset (cards.getD i 0 % 4))) ∧
    (∀ cl ∈ chanceCalls cards current_board iter warmup multiplier iso_offset
        oppoRange reach deal,
      cl.new_board = current_board ||| boardInt2long (cards.getD cl.card_index 0) ∧
      cl.new_reach.length = oppoRange.length ∧
      ∀ h, h < oppoRange.length →
        cl.new_reach.getD h 0 =
          if boardsHasIntercept (boardInt2long (cards.getD cl.card_index 0))
              (toBoardLong (oppoRange.getD h ⟨0, 0, 0⟩)) = true then 0
          else reach.getD h 0 /
            ((cards.length : ℚ) - (boardCardCount current_board : ℚ) - 2)) := by
  constructor
  · intro i
    constructor
    · rintro ⟨cl, hcl, rfl⟩
      rw [chanceCalls] at hcl
      obtain ⟨j, hj, hjeq⟩ := List.mem_map.mp hcl
      obtain ⟨hjr, hjp⟩ := List.mem_filter.mp hj
      have hji : j = cl.card_index := by rw [← hjeq]
      subst hji
      rw [List.mem_range] at hjr
      simp only [Bool.and_eq_true, Bool.not_eq_true'] at hjp
      refine ⟨hjr, hjp.1.1, ?_, ?_⟩
      · intro hw
        intro hmz
        have := hjp.1.2
        rw [Bool.and_eq_false_iff] at this
        rcases this with hc | hc
        · exact absurd (by simpa using hw) (by simpa using hc)
        · rw [beq_eq_false_iff_ne] at hc
          exact hc hmz
      · have := hjp.2
        rw [decide_eq_false_iff_not] at this
        omega
    · rintro ⟨hi, hb, hm, ho⟩
      refine ⟨{ card_index := i
                new_board := current_board ||| boardInt2long (cards.getD i 0)
                new_reach := (List.range oppoRange.length).map (fun player_hand =>
                  if boardsHasIntercept (boardInt2long (cards.getD i 0))
                      (toBoardLong (oppoRange.getD player_hand ⟨0, 0, 0⟩))
                  then 0
                  else reach.getD player_hand 0 /
                    (possibleDeals cards current_board : ℚ))
                new_deal := newDealOf deal cards.length i }, ?_, rfl⟩
      rw [chanceCalls]
      refine List.mem_map.mpr ⟨i, List.mem_filter.mpr ⟨List.mem_range.mpr hi, ?_⟩, rfl⟩
      simp only [Bool.and_eq_true, Bool.not_eq_true']
      refine ⟨⟨hb, ?_⟩, by simpa using ho⟩
      rw [Bool.and_eq_false_iff]
      by_cases hw : iter ≤ warmup
      · exact Or.inr (beq_eq_false_iff_ne.mpr (hm hw))
      · exact Or.inl (by simpa using hw)
  · intro cl hcl
    rw [chanceCalls] at hcl
    obtain ⟨j, hj, hjeq⟩ := List.mem_map.mp hcl
    obtain ⟨hjr, _⟩ := List.mem_filter.mp hj
    rw [List.mem_range] at hjr
    have hji : cl.card_index = j := by rw [← hjeq]
    subst hjeq
    refine ⟨rfl, by simp, ?_⟩
    intro h hh
    simp only
    rw [getD_range_map _ _ hh]
    congr 1
    rw [possibleDeals]
    push_cast
    ring

/-- Witness for C4: a concrete chance node (8-card deck, card 0 on the
board, suit 3 non-canonical) dispatches exactly on cards 1, 2, 4, 5, 6,
and divides surviving reach entries by `possible_deals = 5`. -/
theorem claim_C4_witness :
    (∃ cl ∈ chanceCalls [0, 1, 2, 3, 4, 5, 6, 7] (boardInt2long 0) 5 0 (fun _ => 1)
        (fun s => if s = 3 then -1 else 0) [⟨1, 2, 1⟩] [1] 0, cl.card_index = 4) ∧
    ¬ (∃ cl ∈ chanceCalls [0, 1, 2, 3, 4, 5, 6, 7] (boardInt2long 0) 5 0 (fun _ => 1)
        (fun s => if s = 3 then -1 else 0) [⟨1, 2, 1⟩] [1] 0, cl.card_index = 3) := by
  have h := claim_C4 [0, 1, 2, 3, 4, 5, 6, 7] (boardInt2long 0) 5 0 (fun _ => 1)
    (fun s => if s = 3 then -1 else 0) [⟨1, 2, 1⟩] [1] 0
  constructor
  · exact (h.1 4).mpr ⟨by decide, by decide, by omega, by decide⟩
  · intro hc
    have := (h.1 3).mp hc
    revert this
    decide

/-! ### C3: `terminalUtility` blocker arithmetic -/

/-- `oppoSum` over matched-length lists is the total reach. -/
theorem oppoSum_eq_sum : ∀ (l : List PrivateCards) (r : List ℚ),
    r.length = l.length → oppoSum l r = r.sum := by
  intro l
  induction l with
  | nil =>
    intro r hr
    rw [List.length_nil, List.length_eq_zero] at hr
    subst hr; rfl
  | cons o os ih =>
    intro r hr
    match r with
    | [] => simp at hr
    | x :: rs =>
      simp only [List.length_cons, Nat.succ.injEq] at hr
      simp only [oppoSum, List.zip_cons_cons, List.map_cons, List.sum_cons]
      rw [← oppoSum, ih rs hr]

/-- `oppo_card_sum[c]` equals the reach of opponent hands containing `c`,
provided each hand's two cards are distinct. -/
theorem oppoCardSum_eq_filter (c : ℕ) : ∀ (l : List PrivateCards) (r : List ℚ),
    (∀ o ∈ l, o.card1 ≠ o.card2) →
    oppoCardSum l r c =
      (((l.zip r).filter (fun p => p.1.card1 == c || p.1.card2 == c)).map
        (fun p => p.2)).sum := by
  intro l
  induction l with
  | nil => intro r _; rfl
  | cons o os ih =>
    intro r hwf
    match r with
    | [] => rfl
    | x :: rs =>
      have hne : o.card1 ≠ o.card2 := hwf o (List.mem_cons_self o os)
      have ihs := ih rs (fun o' ho' => hwf o' (List.mem_cons_of_mem o ho'))
      simp only [oppoCardSum, List.zip_cons_cons, List.map_cons, List.sum_cons] at *
      rw [← oppoCardSum] at *
      by_cases h1 : o.card1 = c
      · have h2 : o.card2 ≠ c := fun hc => hne (h1.trans hc.symm)
        rw [List.filter_cons_of_pos (by simp [h1])]
        simp only [List.map_cons, List.sum_cons]
        rw [if_pos h1, if_neg h2, ihs]
        ring
      · by_cases h2 : o.card2 = c
        · rw [List.filter_cons_of_pos (by simp [h2])]
          simp only [List.map_cons, List.sum_cons]
          rw [if_neg h1, if_pos h2, ihs]
          ring
        · rw [List.filter_cons_of_neg (by simp [h1, h2])]
          rw [if_neg h1, if_neg h2, ihs]
          ring

/-- `oppoSum` under uniform reach `r`. -/
theorem oppoSum_replicate (r : ℚ) : ∀ (l : List PrivateCards),
    oppoSum l (List.replicate l.length r) = r * (l.length : ℚ) := by
  intro l
  induction l with
  | nil => simp [oppoSum]
  | cons o os ih =>
    simp only [List.length_cons, List.replicate_succ, oppoSum, List.zip_cons_cons,
      List.map_cons, List.sum_cons]
    rw [← oppoSum, ih]
    push_cast
    ring

/-- `oppo_card_sum[c]` under uniform reach `r` counts hands containing `c`. -/
theorem oppoCardSum_replicate (c : ℕ) (r : ℚ) : ∀ (l : List PrivateCards),
    (∀ o ∈ l, o.card1 ≠ o.card2) →
    oppoCardSum l (List.replicate l.length r) c =
      r * (l.countP (fun o => o.card1 == c || o.card2 == c) : ℚ) := by
  intro l
  induction l with
  | nil => simp [oppoCardSum]
  | cons o os ih =>
    intro hwf
    have hne : o.card1 ≠ o.card2 := hwf o (List.mem_cons_self o os)
    have ihs := ih (fun o' ho' => hwf o' (List.mem_cons_of_mem o ho'))
    simp only [List.length_cons, List.replicate_succ, oppoCardSum, List.zip_cons_cons,
      List.map_cons, List.sum_cons]
    rw [← oppoCardSum, ihs, List.countP_cons]
    by_cases h1 : o.card1 = c
    · have h2 : o.card2 ≠ c := fun hc => hne (h1.trans hc.symm)
      rw [if_pos h1, if_neg h2, show (o.card1 == c || o.card2 == c) = true by simp [h1]]
      push_cast
      simp only [if_true]
      ring
    · by_cases h2 : o.card2 = c
      · rw [if_neg h1, if_pos h2, show (o.card1 == c || o.card2 == c) = true by simp [h2]]
        push_cast
        simp only [if_true]
        ring
      · rw [if_neg h1, if_neg h2,
          show (o.card1 == c || o.card2 == c) = false by simp [h1, h2]]
        push_cast
        ring

/-- Inclusion–exclusion for `countP` over Boolean disjunction. -/
theorem countP_or_and {α : Type} (p q : α → Bool) : ∀ l : List α,
    l.countP (fun a => p a || q a) + l.countP (fun a => p a && q a)
      = l.countP p + l.countP q := by
  intro l
  induction l with
  | nil => rfl
  | cons a l ih =>
    simp only [List.countP_cons]
    cases hp : p a <;> cases hq : q a <;> simp [hp, hq] <;> omega

/-- In a duplicate-free list, the element-equality count of a member is 1. -/
theorem countP_decide_eq_one {α : Type} [DecidableEq α] {l : List α} {a : α}
    (hnd : l.Nodup) (ha : a ∈ l) : l.countP (fun x => decide (x = a)) = 1 := by
  have h := List.count_eq_one_of_mem hnd ha
  rw [List.count_eq_countP] at h
  exact h

/-- C3: at a fold node, for every player hand `h` (index `i`) not
overlapping the board, `payoffs[i] = P · (Σ reach − Σ_{o ∋ h.c1} reach_o −
Σ_{o ∋ h.c2} reach_o + reach[T(h)])` with `T(h)` contributing 0 when
absent; consequently, under uniform opponent reach `r` the payoff is
exactly `P · r · (|oppo range| − #opponent hands sharing a card with h)`. -/
theorem claim_C3 (P : ℚ) (playerRange oppoRange : List PrivateCards) (reach : List ℚ)
    (current_board : ℕ) (i : ℕ) (r : ℚ)
    (hi : i < playerRange.length)
    (hlen : reach.length = oppoRange.length)
    (hwf : ∀ o ∈ oppoRange, o.card1 < o.card2)
    (hwfp : (playerRange.getD i ⟨0, 0, 0⟩).card1 < (playerRange.getD i ⟨0, 0, 0⟩).card2)
    (hnd : (oppoRange.map (fun o => (o.card1, o.card2))).Nodup)
    (hb : boardsHasIntercept current_board
      (toBoardLong (playerRange.getD i ⟨0, 0, 0⟩)) = false) :
    ((terminalUtility P playerRange oppoRange reach current_board).getD i 0 =
      P * (reach.sum
        - (((oppoRange.zip reach).filter (fun p =>
            p.1.card1 == (playerRange.getD i ⟨0, 0, 0⟩).card1 ||
            p.1.card2 == (playerRange.getD i ⟨0, 0, 0⟩).card1)).map (fun p => p.2)).sum
        - (((oppoRange.zip reach).filter (fun p =>
            p.1.card1 == (playerRange.getD i ⟨0, 0, 0⟩).card2 ||
            p.1.card2 == (playerRange.getD i ⟨0, 0, 0⟩).card2)).map (fun p => p.2)).sum
        + plusReachProb (indPlayer2Player playerRange oppoRange i) reach)) ∧
    (reach = List.replicate oppoRange.length r →
      (terminalUtility P playerRange oppoRange reach current_board).getD i 0 =
        P * r * ((oppoRange.length : ℚ) -
          (oppoRange.countP (fun o =>
            o.card1 == (playerRange.getD i ⟨0, 0, 0⟩).card1 ||
            o.card2 == (playerRange.getD i ⟨0, 0, 0⟩).card1 ||
            o.card1 == (playerRange.getD i ⟨0, 0, 0⟩).card2 ||
            o.card2 == (playerRange.getD i ⟨0, 0, 0⟩).card2) : ℚ))) := by
  have hwne : ∀ o ∈ oppoRange, o.card1 ≠ o.card2 := fun o ho => Nat.ne_of_lt (hwf o ho)
  have hval : (terminalUtility P playerRange oppoRange reach current_board).getD i 0 =
      P * (oppoSum oppoRange reach
        - oppoCardSum oppoRange reach (playerRange.getD i ⟨0, 0, 0⟩).card1
        - oppoCardSum oppoRange reach (playerRange.getD i ⟨0, 0, 0⟩).card2
        + plusReachProb (indPlayer2Player playerRange oppoRange i) reach) := by
    simp only [terminalUtility, getD_range_map _ _ hi]
    rw [if_neg (by rw [hb]; exact Bool.false_ne_true)]
  constructor
  · rw [hval, oppoSum_eq_sum _ _ hlen,
      oppoCardSum_eq_filter _ _ _ hwne, oppoCardSum_eq_filter _ _ _ hwne]
  · intro hrep
    subst hrep
    rw [hval, oppoSum_replicate, oppoCardSum_replicate _ _ _ hwne,
      oppoCardSum_replicate _ _ _ hwne]
    have hie := countP_or_and
      (fun o : PrivateCards => o.card1 == (playerRange.getD i ⟨0, 0, 0⟩).card1 ||
        o.card2 == (playerRange.getD i ⟨0, 0, 0⟩).card1)
      (fun o : PrivateCards => o.card1 == (playerRange.getD i ⟨0, 0, 0⟩).card2 ||
        o.card2 == (playerRange.getD i ⟨0, 0, 0⟩).card2) oppoRange
    have hshares : oppoRange.countP (fun o =>
        (o.card1 == (playerRange.getD i ⟨0, 0, 0⟩).card1 ||
         o.card2 == (playerRange.getD i ⟨0, 0, 0⟩).card1) ||
        (o.card1 == (playerRange.getD i ⟨0, 0, 0⟩).card2 ||
         o.card2 == (playerRange.getD i ⟨0, 0, 0⟩).card2)) =
      oppoRange.countP (fun o =>
        o.card1 == (playerRange.getD i ⟨0, 0, 0⟩).card1 ||
        o.card2 == (playerRange.getD i ⟨0, 0, 0⟩).card1 ||
        o.card1 == (playerRange.getD i ⟨0, 0, 0⟩).card2 ||
        o.card2 == (playerRange.getD i ⟨0, 0, 0⟩).card2) := by
      apply List.countP_congr
      intro o _
      simp [Bool.or_assoc]
    have hboth : oppoRange.countP (fun o =>
        (o.card1 == (playerRange.getD i ⟨0, 0, 0⟩).card1 ||
         o.card2 == (playerRange.getD i ⟨0, 0, 0⟩).card1) &&
        (o.card1 == (playerRange.getD i ⟨0, 0, 0⟩).card2 ||
         o.card2 == (playerRange.getD i ⟨0, 0, 0⟩).card2)) =
      oppoRange.countP (fun o =>
        o.card1 == (playerRange.getD i ⟨0, 0, 0⟩).card1 &&
        o.card2 == (playerRange.getD i ⟨0, 0, 0⟩).card2) := by
      apply List.countP_congr
      intro o ho
      have h1 := hwf o ho
      have h2 := hwfp
      simp only [Bool.and_eq_true, Bool.or_eq_true, beq_iff_eq]
      constructor
      · rintro ⟨ha | ha, hb' | hb'⟩ <;> omega
      · rintro ⟨ha, hb'⟩
        exact ⟨Or.inl ha, Or.inr hb'⟩
    rw [hshares] at hie
    rcases hfind : indPlayer2Player playerRange oppoRange i with - | j
    case none =>
      have hz : oppoRange.countP (fun o =>
          o.card1 == (playerRange.getD i ⟨0, 0, 0⟩).card1 &&
          o.card2 == (playerRange.getD i ⟨0, 0, 0⟩).card2) = 0 := by
        rw [List.countP_eq_zero]
        intro o ho
        have := List.findIdx?_eq_none_iff.mp hfind o ho
        simp only [this]
        exact Bool.false_ne_true
      rw [hboth, hz] at hie
      rw [show plusReachProb none (List.replicate oppoRange.length r) = 0 from rfl]
      have hq : ((oppoRange.countP (fun o =>
            o.card1 == (playerRange.getD i ⟨0, 0, 0⟩).card1 ||
            o.card2 == (playerRange.getD i ⟨0, 0, 0⟩).card1 ||
            o.card1 == (playerRange.getD i ⟨0, 0, 0⟩).card2 ||
            o.card2 == (playerRange.getD i ⟨0, 0, 0⟩).card2) : ℚ)) =
          (oppoRange.countP (fun o =>
            o.card1 == (playerRange.getD i ⟨0, 0, 0⟩).card1 ||
            o.card2 == (playerRange.getD i ⟨0, 0, 0⟩).card1) : ℚ) +
          (oppoRange.countP (fun o =>
            o.card1 == (playerRange.getD i ⟨0, 0, 0⟩).card2 ||
            o.card2 == (playerRange.getD i ⟨0, 0, 0⟩).card2) : ℚ) := by
        exact_mod_cast congrArg (Nat.cast : ℕ → ℚ) (by omega : _ = _)
      linear_combination P * r * hq
    case some =>
      obtain ⟨hjlt, hjp, -⟩ := List.findIdx?_eq_some_iff_getElem.mp hfind
      have hone : oppoRange.countP (fun o =>
          o.card1 == (playerRange.getD i ⟨0, 0, 0⟩).card1 &&
          o.card2 == (playerRange.getD i ⟨0, 0, 0⟩).card2) = 1 := by
        have hmem : ((playerRange.getD i ⟨0, 0, 0⟩).card1,
            (playerRange.getD i ⟨0, 0, 0⟩).card2) ∈
            oppoRange.map (fun o => (o.card1, o.card2)) := by
          refine List.mem_map.mpr ⟨oppoRange[j], List.getElem_mem _, ?_⟩
          simp only [Bool.and_eq_true, beq_iff_eq] at hjp
          rw [hjp.1, hjp.2]
        have h1 := countP_decide_eq_one hnd hmem
        rw [List.countP_map] at h1
        calc oppoRange.countP (fun o =>
              o.card1 == (playerRange.getD i ⟨0, 0, 0⟩).card1 &&
              o.card2 == (playerRange.getD i ⟨0, 0, 0⟩).card2)
            = oppoRange.countP ((fun pr => decide
                (pr = ((playerRange.getD i ⟨0, 0, 0⟩).card1,
                  (playerRange.getD i ⟨0, 0, 0⟩).card2))) ∘
                (fun o => (o.card1, o.card2))) := by
              apply List.countP_congr
              intro o _
              simp [Function.comp, Prod.ext_iff]
          _ = 1 := h1
      rw [show plusReachProb (some j) (List.replicate oppoRange.length r) =
        (List.replicate oppoRange.length r).getD j 0 from rfl,
        getD_replicate _ _ hjlt]
      rw [hboth, hone] at hie
      have hq : ((oppoRange.countP (fun o =>
          o.card1 == (playerRange.getD i ⟨0, 0, 0⟩).card1 ||
          o.card2 == (playerRange.getD i ⟨0, 0, 0⟩).card1 ||
          o.card1 == (playerRange.getD i ⟨0, 0, 0⟩).card2 ||
          o.card2 == (playerRange.getD i ⟨0, 0, 0⟩).card2) : ℚ)) + 1 =
        (oppoRange.countP (fun o =>
          o.card1 == (playerRange.getD i ⟨0, 0, 0⟩).card1 ||
          o.card2 == (playerRange.getD i ⟨0, 0, 0⟩).card1) : ℚ) +
        (oppoRange.countP (fun o =>
          o.card1 == (playerRange.getD i ⟨0, 0, 0⟩).card2 ||
          o.card2 == (playerRange.getD i ⟨0, 0, 0⟩).card2) : ℚ) := by
        exact_mod_cast congrArg (Nat.cast : ℕ → ℚ) (by omega : _ = _)
      linear_combination P * r * hq

/-- Witness for C3: payoff 2, one player hand (0,1), three uniform-reach
opponent hands of which two share a card with it: payoff
`2 · 1 · (3 − 2) = 2`. -/
theorem claim_C3_witness :
    (terminalUtility 2 [⟨0, 1, 1⟩] [⟨0, 2, 1⟩, ⟨4, 5, 1⟩, ⟨0, 1, 1⟩]
      (List.replicate 3 1) 0).getD 0 0 = 2 := by
  have h := (claim_C3 2 [⟨0, 1, 1⟩] [⟨0, 2, 1⟩, ⟨4, 5, 1⟩, ⟨0, 1, 1⟩]
    (List.replicate 3 1) 0 0 1 (by decide) (by decide) (by decide) (by decide)
    (by decide) (by decide)).2 rfl
  rw [h]
  norm_num [List.countP_cons]

/-! ### C1 and C5: pointwise description of `updateRegrets` -/

/-- Pointwise value of the updated `r_plus`. -/
theorem updateRegretsCore_r_plus {K : Type} [LinearOrderedField K] (st : DcfrState K)
    (regrets : List K) (ac bt th sc : K) {index : ℕ}
    (hidx : index < st.action_number * st.card_number) :
    (updateRegretsCore st regrets ac bt th sc).r_plus.getD index 0 =
      (if 0 < regrets.getD index 0 + st.r_plus.getD index 0
       then (regrets.getD index 0 + st.r_plus.getD index 0) * ac
       else (regrets.getD index 0 + st.r_plus.getD index 0) * bt) := by
  exact getD_range_map _ _ hidx

/-- Pointwise value of the updated `r_plus_sum`. -/
theorem updateRegretsCore_r_plus_sum {K : Type} [LinearOrderedField K] (st : DcfrState K)
    (regrets : List K) (ac bt th sc : K) {h : ℕ} (hh : h < st.card_number) :
    (updateRegretsCore st regrets ac bt th sc).r_plus_sum.getD h 0 =
      ∑ a ∈ Finset.range st.action_number,
        max 0 ((updateRegretsCore st regrets ac bt th sc).r_plus.getD
          (a * st.card_number + h) 0) := by
  exact getD_range_map _ _ hh

/-- Pointwise value of the updated `cum_r_plus`: the old value scaled by
`theta` plus the freshly derived current strategy scaled by
`strategy_coef`. -/
theorem updateRegretsCore_cum {K : Type} [LinearOrderedField K] (st : DcfrState K)
    (regrets : List K) (ac bt th sc : K) {index : ℕ}
    (hidx : index < st.action_number * st.card_number) :
    (updateRegretsCore st regrets ac bt th sc).cum_r_plus.getD index 0 =
      st.cum_r_plus.getD index 0 * th +
        (getcurrentStrategyNoCache { st with
          r_plus := (updateRegretsCore st regrets ac bt th sc).r_plus,
          r_plus_sum := (updateRegretsCore st regrets ac bt th sc).r_plus_sum }).getD
            index 0 * sc := by
  exact getD_range_map _ _ hidx

/-- Entry of the current strategy when `r_plus_sum` is nonempty. -/
theorem getcurrentStrategyNoCache_getD {K : Type} [LinearOrderedField K]
    (st : DcfrState K) {index : ℕ}
    (hidx : index < st.action_number * st.card_number)
    (hne : st.r_plus_sum.isEmpty = false) :
    (getcurrentStrategyNoCache st).getD index 0 =
      if st.r_plus_sum.getD (index % st.card_number) 0 ≠ 0 then
        max 0 (st.r_plus.getD index 0) / st.r_plus_sum.getD (index % st.card_number) 0
      else 1 / (st.action_number : K) := by
  rw [getcurrentStrategyNoCache, if_neg (by rw [hne]; exact Bool.false_ne_true)]
  exact getD_range_map _ _ hidx

/-- The discount coefficient is nonnegative. -/
theorem dcfrAlphaCoef_nonneg (n : ℕ) : 0 ≤ dcfrAlphaCoef n := by
  rw [dcfrAlphaCoef]
  have h1 : (0 : ℝ) ≤ (n : ℝ) ^ dcfr_alpha :=
    Real.rpow_nonneg (Nat.cast_nonneg n) dcfr_alpha
  exact div_nonneg h1 (by linarith)

/-- The driven scenario keeps one action and one hand. -/
theorem drivenState_AH : ∀ t, (drivenState t).action_number = 1 ∧
    (drivenState t).card_number = 1 := by
  intro t
  induction t with
  | zero => exact ⟨rfl, rfl⟩
  | succ n ih => exact ⟨ih.1, ih.2⟩

/-- The driven scenario starts at zero accumulated regret. -/
theorem drivenState_zero : (drivenState 0).r_plus.getD 0 0 = 0 := by
  rw [show (drivenState 0).r_plus = List.replicate 1 (0 : ℝ) from rfl,
    getD_replicate _ _ (by norm_num : (0 : ℕ) < 1)]

/-- The driven regret stays nonnegative. -/
theorem drivenState_nonneg : ∀ t, 0 ≤ (drivenState t).r_plus.getD 0 0 := by
  intro t
  induction t with
  | zero => rw [drivenState_zero]
  | succ n ih =>
    have h0 : (0 : ℕ) < (drivenState n).action_number * (drivenState n).card_number := by
      rw [(drivenState_AH n).1, (drivenState_AH n).2]
      norm_num
    show 0 ≤ (updateRegrets (drivenState n) [1] (n + 1)).r_plus.getD 0 0
    rw [updateRegrets, updateRegretsCore_r_plus _ _ _ _ _ _ h0,
      show ([(1 : ℝ)]).getD 0 0 = 1 from rfl, if_pos (by linarith)]
    exact mul_nonneg (by linarith) (dcfrAlphaCoef_nonneg (n + 1))

/-- The driven regret follows the recurrence
`r(t+1) = (r(t) + 1) · alpha_coef(t+1)`. -/
theorem drivenState_succ (t : ℕ) :
    (drivenState (t + 1)).r_plus.getD 0 0 =
      ((drivenState t).r_plus.getD 0 0 + 1) * dcfrAlphaCoef (t + 1) := by
  have h0 : (0 : ℕ) < (drivenState t).action_number * (drivenState t).card_number := by
    rw [(drivenState_AH t).1, (drivenState_AH t).2]
    norm_num
  show (updateRegrets (drivenState t) [1] (t + 1)).r_plus.getD 0 0 = _
  rw [updateRegrets, updateRegretsCore_r_plus _ _ _ _ _ _ h0,
    show ([(1 : ℝ)]).getD 0 0 = 1 from rfl,
    if_pos (by linarith [drivenState_nonneg t])]
  ring

/-- Closed form for the driven regret: a product-discounted sum. -/
theorem drivenState_closed : ∀ t, (drivenState t).r_plus.getD 0 0 =
    ∑ k ∈ Finset.Icc 1 t, ∏ j ∈ Finset.Icc k t, dcfrAlphaCoef j := by
  intro t
  induction t with
  | zero =>
    rw [drivenState_zero, Finset.Icc_eq_empty (by omega), Finset.sum_empty]
  | succ n ih =>
    rw [drivenState_succ n, ih,
      Finset.sum_Icc_succ_top (by omega : 1 ≤ n + 1),
      Finset.Icc_self, Finset.prod_singleton,
      Finset.sum_congr rfl (fun k hk => Finset.prod_Icc_succ_top (by
        have := (Finset.mem_Icc.mp hk).2
        omega) dcfrAlphaCoef),
      ← Finset.sum_mul]
    ring

/-- C1 (amended): each `updateRegrets(regrets, t+1)` updates
`r_plus[a,h]` to `(old + regret) · (t+1)^α/(1+(t+1)^α)` when the sum is
positive and `(old + regret) · β` otherwise, and sets
`r_plus_sum[h] = Σ_a max(0, r_plus[a,h])`; driven with constant regret
1.0 (and β = 0 never hit, since regrets stay positive), `r_plus` follows
the exact closed form `Σ_{k=1}^{t} Π_{j=k}^{t} (j^α/(1+j^α))` — a
product-discounted sum, not a scaled plain sum of coefficients. -/
theorem claim_C1 :
    (∀ (st : DcfrState ℝ) (regrets : List ℝ) (t : ℕ),
      st.r_plus.length = st.action_number * st.card_number →
      regrets.length = st.action_number * st.card_number →
      ∀ a h, a < st.action_number → h < st.card_number →
        ((updateRegrets st regrets (t + 1)).r_plus.getD (a * st.card_number + h) 0 =
          (if 0 < st.r_plus.getD (a * st.card_number + h) 0 +
              regrets.getD (a * st.card_number + h) 0 then
            (st.r_plus.getD (a * st.card_number + h) 0 +
              regrets.getD (a * st.card_number + h) 0) * dcfrAlphaCoef (t + 1)
          else
            (st.r_plus.getD (a * st.card_number + h) 0 +
              regrets.getD (a * st.card_number + h) 0) * dcfr_beta) ∧
        (updateRegrets st regrets (t + 1)).r_plus_sum.getD h 0 =
          ∑ a' ∈ Finset.range st.action_number,
            max 0 ((updateRegrets st regrets (t + 1)).r_plus.getD
              (a' * st.card_number + h) 0))) ∧
    (∀ t : ℕ, (drivenState t).r_plus.getD 0 0 =
      ∑ k ∈ Finset.Icc 1 t, ∏ j ∈ Finset.Icc k t, dcfrAlphaCoef j) := by
  constructor
  · intro st regrets t _ _ a h ha hh
    constructor
    · rw [updateRegrets, updateRegretsCore_r_plus st regrets _ _ _ _ (flat_index_lt ha hh),
        add_comm (regrets.getD (a * st.card_number + h) 0)
          (st.r_plus.getD (a * st.card_number + h) 0)]
    · rw [updateRegrets, updateRegretsCore_r_plus_sum st regrets _ _ _ _ hh]
  · exact drivenState_closed

/-- Counterexample to the closed-form clause of C1 as stated: no single
scale makes the driven `r_plus` equal `scale · Σ_{k=1}^t k^1.5/(1+k^1.5)`
over the test's 10 iterations: matching `t = 1` forces `scale = 1`, and
then `t = 2` would force `2^1.5/(1+2^1.5) = 1`, which is impossible. -/
theorem claim_C1_counterexample :
    ¬ ∃ scale : ℝ, ∀ t : ℕ, 1 ≤ t → t ≤ 10 →
      (drivenState t).r_plus.getD 0 0 =
        scale * ∑ k ∈ Finset.Icc 1 t, dcfrAlphaCoef k := by
  rintro ⟨s, hs⟩
  have hc1 : dcfrAlphaCoef 1 = 1 / 2 := by
    rw [dcfrAlphaCoef]
    norm_num [Real.one_rpow]
  have hx : (0 : ℝ) < (2 : ℝ) ^ dcfr_alpha := Real.rpow_pos_of_pos (by norm_num) _
  have hc2lt : dcfrAlphaCoef 2 < 1 := by
    rw [dcfrAlphaCoef]
    push_cast
    rw [div_lt_one (by linarith)]
    linarith
  have h1 := hs 1 (by norm_num) (by norm_num)
  have h2 := hs 2 (by norm_num) (by norm_num)
  rw [drivenState_succ 0, drivenState_zero, Finset.Icc_self, Finset.sum_singleton] at h1
  rw [show (2 : ℕ) = 1 + 1 from rfl, drivenState_succ 1, drivenState_succ 0,
    drivenState_zero] at h2
  rw [show Finset.Icc 1 (1 + 1) = {1, 2} from by decide,
    Finset.sum_insert (by decide), Finset.sum_singleton] at h2
  rw [hc1] at h1 h2
  have hs1 : s = 1 := by
    have : (0 + 1) * (1 / 2 : ℝ) = 1 / 2 := by ring
    rw [this] at h1
    linarith
  rw [hs1] at h2
  have hc2 : dcfrAlphaCoef (1 + 1) = dcfrAlphaCoef 2 := by norm_num
  rw [hc2] at h2
  nlinarith [h2, hc2lt]

/-- Witness for C1 at the one-action, one-hand zero state with regret 1
and iteration number 1. -/
theorem claim_C1_witness :
    (initState ℝ 1 1).r_plus.length =
      (initState ℝ 1 1).action_number * (initState ℝ 1 1).card_number ∧
    (updateRegrets (initState ℝ 1 1) [1] 1).r_plus_sum.getD 0 0 =
      ∑ a' ∈ Finset.range (initState ℝ 1 1).action_number,
        max 0 ((updateRegrets (initState ℝ 1 1) [1] 1).r_plus.getD
          (a' * (initState ℝ 1 1).card_number + 0) 0) :=
  ⟨by simp [initState],
   (claim_C1.1 (initState ℝ 1 1) [1] 0 (by simp [initState]) (by simp [initState])
     0 0 (by norm_num [initState]) (by norm_num [initState])).2⟩

/-- A one-action state whose single `r_plus_sum` entry is positive and
equal to its `r_plus` entry yields current strategy 1. -/
theorem strategy_one {st : DcfrState ℝ} (hA : st.action_number = 1)
    (hH : st.card_number = 1) (hne : st.r_plus_sum.isEmpty = false)
    (hpos : 0 < st.r_plus_sum.getD 0 0)
    (heq : st.r_plus.getD 0 0 = st.r_plus_sum.getD 0 0) :
    (getcurrentStrategyNoCache st).getD 0 0 = 1 := by
  rw [getcurrentStrategyNoCache_getD st (by rw [hA, hH]; norm_num) hne,
    show ((0 : ℕ) % st.card_number) = 0 from by rw [hH],
    if_pos hpos.ne', heq, max_eq_right (heq ▸ hpos.le)]
  exact div_self hpos.ne'

/-- C5 (amended): after the regret update of `updateRegrets(regrets, t+1)`
each `cum_r_plus[a,h]` becomes `cum_r_plus[a,h]·θ + σ(a|h)·strategy_coef`
with σ freshly derived from the updated `r_plus`, and
`strategy_coef = ((t+1)/(t+2))^γ` — the source computes
`(iteration_number/(iteration_number+1))^γ` from the passed iteration
number `t+1`, not `(t/(t+1))^γ`. -/
theorem claim_C5 (st : DcfrState ℝ) (regrets : List ℝ) (t : ℕ)
    (_hr : regrets.length = st.action_number * st.card_number) :
    ∀ index, index < st.action_number * st.card_number →
      (updateRegrets st regrets (t + 1)).cum_r_plus.getD index 0 =
        st.cum_r_plus.getD index 0 * dcfr_theta +
          (getcurrentStrategyNoCache { st with
            r_plus := (updateRegrets st regrets (t + 1)).r_plus,
            r_plus_sum := (updateRegrets st regrets (t + 1)).r_plus_sum }).getD index 0 *
            (((t : ℝ) + 1) / ((t : ℝ) + 2)) ^ dcfr_gamma := by
  intro index hidx
  have hcoef : dcfrStrategyCoef (t + 1) =
      (((t : ℝ) + 1) / ((t : ℝ) + 2)) ^ dcfr_gamma := by
    rw [dcfrStrategyCoef]
    congr 1
    push_cast
    ring
  rw [updateRegrets, updateRegretsCore_cum st regrets _ _ _ _ hidx, hcoef]

/-- Counterexample to C5 as stated: from the zero one-action, one-hand
state with regret 1 and `updateRegrets(regrets, 2)` (so `t = 1`), the
fresh strategy is σ = 1 and the code stores `cum_r_plus = (2/3)² = 4/9`,
while the claim's `(t/(t+1))^γ = (1/2)² = 1/4`. -/
theorem claim_C5_counterexample :
    (updateRegrets (initState ℝ 1 1) [1] 2).cum_r_plus.getD 0 0 = 4 / 9 ∧
    (initState ℝ 1 1).cum_r_plus.getD 0 0 * dcfr_theta +
      1 * ((1 : ℝ) / ((1 : ℝ) + 1)) ^ dcfr_gamma = 1 / 4 ∧
    (4 : ℝ) / 9 ≠ 1 / 4 := by
  have hA : (initState ℝ 1 1).action_number = 1 := rfl
  have hH : (initState ℝ 1 1).card_number = 1 := rfl
  have h01 : (0 : ℕ) < (initState ℝ 1 1).action_number *
      (initState ℝ 1 1).card_number := by rw [hA, hH]; norm_num
  have hgam : dcfr_gamma = ((2 : ℕ) : ℝ) := by rw [dcfr_gamma]; norm_num
  have hcum0 : (initState ℝ 1 1).cum_r_plus.getD 0 0 = 0 := by
    rw [show (initState ℝ 1 1).cum_r_plus = List.replicate 1 (0 : ℝ) from rfl,
      getD_replicate _ _ (by norm_num : (0 : ℕ) < 1)]
  have hc2pos : 0 < dcfrAlphaCoef 2 := by
    rw [dcfrAlphaCoef]
    have hx : (0 : ℝ) < ((2 : ℕ) : ℝ) ^ dcfr_alpha :=
      Real.rpow_pos_of_pos (by norm_num) _
    exact div_pos hx (by positivity)
  have hrp : (updateRegretsCore (initState ℝ 1 1) [1] (dcfrAlphaCoef 2) dcfr_beta
      dcfr_theta (dcfrStrategyCoef 2)).r_plus.getD 0 0 = dcfrAlphaCoef 2 := by
    rw [updateRegretsCore_r_plus _ _ _ _ _ _ h01,
      show ([(1 : ℝ)]).getD 0 0 = 1 from rfl,
      show (initState ℝ 1 1).r_plus.getD 0 0 = 0 from by
        rw [show (initState ℝ 1 1).r_plus = List.replicate 1 (0 : ℝ) from rfl,
          getD_replicate _ _ (by norm_num : (0 : ℕ) < 1)],
      if_pos (by norm_num)]
    ring
  have hh0 : (0 : ℕ) < (initState ℝ 1 1).card_number := by rw [hH]; norm_num
  have hrs : (updateRegretsCore (initState ℝ 1 1) [1] (dcfrAlphaCoef 2) dcfr_beta
      dcfr_theta (dcfrStrategyCoef 2)).r_plus_sum.getD 0 0 = dcfrAlphaCoef 2 := by
    rw [updateRegretsCore_r_plus_sum _ _ _ _ _ _ hh0, hA, Finset.sum_range_one,
      show ((0 : ℕ) * (initState ℝ 1 1).card_number + 0) = 0 from by rw [hH],
      hrp, max_eq_right hc2pos.le]
  have hsig : (getcurrentStrategyNoCache { initState ℝ 1 1 with
      r_plus := (updateRegretsCore (initState ℝ 1 1) [1] (dcfrAlphaCoef 2) dcfr_beta
        dcfr_theta (dcfrStrategyCoef 2)).r_plus,
      r_plus_sum := (updateRegretsCore (initState ℝ 1 1) [1] (dcfrAlphaCoef 2) dcfr_beta
        dcfr_theta (dcfrStrategyCoef 2)).r_plus_sum }).getD 0 0 = 1 := by
    refine strategy_one rfl rfl rfl ?_ ?_
    · exact hrs.symm ▸ hc2pos
    · exact hrp.trans hrs.symm
  have hsc : dcfrStrategyCoef 2 = 4 / 9 := by
    rw [dcfrStrategyCoef, hgam, Real.rpow_natCast]
    norm_num
  refine ⟨?_, ?_, by norm_num⟩
  · rw [updateRegrets, updateRegretsCore_cum _ _ _ _ _ _ h01, hcum0, hsig, hsc]
    rw [dcfr_theta]
    ring
  · rw [hcum0, hgam, Real.rpow_natCast, dcfr_theta]
    norm_num

/-- Witness for C5 at the one-action, one-hand zero state with regret 1
and `t = 0` (iteration number 1). -/
theorem claim_C5_witness :
    ([(1 : ℝ)] : List ℝ).length =
      (initState ℝ 1 1).action_number * (initState ℝ 1 1).card_number ∧
    (updateRegrets (initState ℝ 1 1) [1] (0 + 1)).cum_r_plus.getD 0 0 =
      (initState ℝ 1 1).cum_r_plus.getD 0 0 * dcfr_theta +
        (getcurrentStrategyNoCache { initState ℝ 1 1 with
          r_plus := (updateRegrets (initState ℝ 1 1) [1] (0 + 1)).r_plus,
          r_plus_sum := (updateRegrets (initState ℝ 1 1) [1] (0 + 1)).r_plus_sum }).getD
            0 0 * ((((0 : ℕ) : ℝ) + 1) / (((0 : ℕ) : ℝ) + 2)) ^ dcfr_gamma :=
  ⟨by simp [initState],
   claim_C5 (initState ℝ 1 1) [1] 0 (by simp [initState]) 0 (by norm_num [initState])⟩

/-! ### C2: the showdown two-pointer passes -/

/-- `sumReach` distributes over cons. -/
theorem sumReach_cons (reach : List ℚ) (o : RiverCombs) (l : List RiverCombs) :
    sumReach reach (o :: l) = reachOf reach o + sumReach reach l := by
  simp [sumReach]

/-- `sumCard` distributes over cons. -/
theorem sumCard_cons (reach : List ℚ) (o : RiverCombs) (l : List RiverCombs) (c : ℕ) :
    sumCard reach (o :: l) c =
      ((if o.card1 = c then reachOf reach o else 0) +
       (if o.card2 = c then reachOf reach o else 0)) + sumCard reach l c := by
  simp [sumCard]

/-- `sumReach` distributes over append. -/
theorem sumReach_append (reach : List ℚ) (l1 l2 : List RiverCombs) :
    sumReach reach (l1 ++ l2) = sumReach reach l1 + sumReach reach l2 := by
  simp [sumReach]

/-- `sumCard` distributes over append. -/
theorem sumCard_append (reach : List ℚ) (l1 l2 : List RiverCombs) (c : ℕ) :
    sumCard reach (l1 ++ l2) c = sumCard reach l1 c + sumCard reach l2 c := by
  simp [sumCard]

/-- `sumReach` is invariant under reversal. -/
theorem sumReach_reverse (reach : List ℚ) (l : List RiverCombs) :
    sumReach reach l.reverse = sumReach reach l := by
  rw [sumReach, sumReach, List.map_reverse, List.sum_reverse]

/-- `sumCard` is invariant under reversal. -/
theorem sumCard_reverse (reach : List ℚ) (l : List RiverCombs) (c : ℕ) :
    sumCard reach l.reverse c = sumCard reach l c := by
  rw [sumCard, sumCard, List.map_reverse, List.sum_reverse]

/-- The inner `while` consumes exactly the `takeWhile` prefix. -/
theorem advancePtr_fst (reach : List ℚ) (pred : RiverCombs → Bool) :
    ∀ (os : List RiverCombs) (w : ℚ) (cw : ℕ → ℚ),
      (advancePtr reach pred os w cw).1 = os.dropWhile pred := by
  intro os
  induction os with
  | nil => intro w cw; rfl
  | cons o os ih =>
    intro w cw
    by_cases h : pred o
    · rw [advancePtr, if_pos h, List.dropWhile_cons_of_pos h, ih]
    · rw [advancePtr, if_neg h, List.dropWhile_cons_of_neg h]

/-- The inner `while` adds the consumed prefix's reach to the running sum. -/
theorem advancePtr_w (reach : List ℚ) (pred : RiverCombs → Bool) :
    ∀ (os : List RiverCombs) (w : ℚ) (cw : ℕ → ℚ),
      (advancePtr reach pred os w cw).2.1 = w + sumReach reach (os.takeWhile pred) := by
  intro os
  induction os with
  | nil => intro w cw; simp [advancePtr, sumReach]
  | cons o os ih =>
    intro w cw
    by_cases h : pred o
    · rw [advancePtr, if_pos h, ih, List.takeWhile_cons_of_pos h, sumReach_cons]
      ring
    · rw [advancePtr, if_neg h, List.takeWhile_cons_of_neg h]
      simp [sumReach]

/-- The inner `while` adds the consumed prefix's per-card reach to the
per-card accumulator. -/
theorem advancePtr_cw (reach : List ℚ) (pred : RiverCombs → Bool) :
    ∀ (os : List RiverCombs) (w : ℚ) (cw : ℕ → ℚ) (c : ℕ),
      (advancePtr reach pred os w cw).2.2 c =
        cw c + sumCard reach (os.takeWhile pred) c := by
  intro os
  induction os with
  | nil => intro w cw c; simp [advancePtr, sumCard]
  | cons o os ih =>
    intro w cw c
    by_cases h : pred o
    · rw [advancePtr, if_pos h, ih, List.takeWhile_cons_of_pos h, sumCard_cons]
      ring
    · rw [advancePtr, if_neg h, List.takeWhile_cons_of_neg h]
      simp [sumCard]

/-- Under a sorted list, `takeWhile` of a downward-closed predicate is
`filter`. -/
theorem takeWhile_eq_filter {α : Type} {R : α → α → Prop} {p : α → Bool}
    (hmono : ∀ a b, R a b → p a = false → p b = false) :
    ∀ os : List α, os.Pairwise R → os.takeWhile p = os.filter p := by
  intro os
  induction os with
  | nil => intro _; rfl
  | cons o os ih =>
    intro hp
    rw [List.pairwise_cons] at hp
    by_cases h : p o
    · rw [List.takeWhile_cons_of_pos h, List.filter_cons_of_pos h, ih hp.2]
    · have hfo : p o = false := by revert h; cases p o <;> simp
      have hnil : os.filter p = [] := by
        rw [List.filter_eq_nil_iff]
        intro a ha
        rw [hmono o a (hp.1 a ha) hfo]
        simp
      rw [List.takeWhile_cons_of_neg h, List.filter_cons_of_neg h, hnil]

/-- Splitting a filter along a `takeWhile`/`dropWhile` cut whose prefix
satisfies the filter predicate. -/
theorem filter_split {α : Type} (p q : α → Bool) (os : List α)
    (hpq : ∀ o ∈ os.takeWhile q, p o = true) :
    os.filter p = os.takeWhile q ++ (os.dropWhile q).filter p := by
  conv_lhs => rw [← List.takeWhile_append_dropWhile q os]
  rw [List.filter_append, List.filter_eq_self.mpr hpq]

/-- The win pass leaves untouched every payoff index outside the player
list. -/
theorem winPassGo_untouched (W : ℚ) (reach : List ℚ) :
    ∀ (ps os : List RiverCombs) (w : ℚ) (cw : ℕ → ℚ) (pay : ℕ → ℚ) (idx : ℕ),
      idx ∉ ps.map RiverCombs.reach_prob_index →
      winPassGo W reach ps os w cw pay idx = pay idx := by
  intro ps
  induction ps with
  | nil => intro os w cw pay idx _; rfl
  | cons p ps ih =>
    intro os w cw pay idx hidx
    simp only [List.map_cons, List.mem_cons, not_or] at hidx
    rw [winPassGo, ih _ _ _ _ _ hidx.2, Function.update_noteq hidx.1]

/-- The loss pass leaves untouched every payoff index outside the player
list. -/
theorem lossPassGo_untouched (L : ℚ) (reach : List ℚ) :
    ∀ (ps os : List RiverCombs) (w : ℚ) (cw : ℕ → ℚ) (pay : ℕ → ℚ) (idx : ℕ),
      idx ∉ ps.map RiverCombs.reach_prob_index →
      lossPassGo L reach ps os w cw pay idx = pay idx := by
  intro ps
  induction ps with
  | nil => intro os w cw pay idx _; rfl
  | cons p ps ih =>
    intro os w cw pay idx hidx
    simp only [List.map_cons, List.mem_cons, not_or] at hidx
    rw [lossPassGo, ih _ _ _ _ _ hidx.2, Function.update_noteq hidx.1]

/-- The win pass: under rank-descending sorted inputs, each player combo's
payoff entry is `(winsum − card_winsum[c1] − card_winsum[c2]) · W`
aggregated over exactly the opponent combos of strictly larger rank. -/
theorem winPassGo_spec (W : ℚ) (reach : List ℚ) :
    ∀ (ps os : List RiverCombs) (w : ℚ) (cw : ℕ → ℚ) (pay : ℕ → ℚ),
      List.Pairwise (fun a b => b.rank ≤ a.rank) ps →
      List.Pairwise (fun a b => b.rank ≤ a.rank) os →
      (ps.map RiverCombs.reach_prob_index).Nodup →
      ∀ p ∈ ps, winPassGo W reach ps os w cw pay p.reach_prob_index =
        ((w + sumReach reach (os.filter (fun o => decide (p.rank < o.rank))))
          - (cw p.card1 +
             sumCard reach (os.filter (fun o => decide (p.rank < o.rank))) p.card1)
          - (cw p.card2 +
             sumCard reach (os.filter (fun o => decide (p.rank < o.rank))) p.card2)) * W := by
  intro ps
  induction ps with
  | nil => intro os w cw pay _ _ _ p hp; cases hp
  | cons p0 ps ih =>
    intro os w cw pay hP hO hnd p hp
    rw [List.pairwise_cons] at hP
    simp only [List.map_cons, List.nodup_cons] at hnd
    have hmono : ∀ a b : RiverCombs, b.rank ≤ a.rank →
        decide (p0.rank < a.rank) = false → decide (p0.rank < b.rank) = false := by
      intro a b hab ha
      simp only [decide_eq_false_iff_not] at *
      omega
    have htf : os.takeWhile (fun o => decide (p0.rank < o.rank)) =
        os.filter (fun o => decide (p0.rank < o.rank)) :=
      takeWhile_eq_filter hmono os hO
    rcases List.mem_cons.mp hp with rfl | hp'
    · rw [winPassGo, winPassGo_untouched _ _ _ _ _ _ _ _ hnd.1, Function.update_same,
        advancePtr_w, advancePtr_cw, advancePtr_cw, htf]
    · have hOs' : List.Pairwise (fun a b : RiverCombs => b.rank ≤ a.rank)
          ((advancePtr reach (fun o => decide (p0.rank < o.rank)) os w cw).1) := by
        rw [advancePtr_fst]
        exact List.Pairwise.sublist (List.dropWhile_sublist _) hO
      have hih := ih (advancePtr reach (fun o => decide (p0.rank < o.rank)) os w cw).1
        (advancePtr reach (fun o => decide (p0.rank < o.rank)) os w cw).2.1
        (advancePtr reach (fun o => decide (p0.rank < o.rank)) os w cw).2.2
        (Function.update pay p0.reach_prob_index
          (((advancePtr reach (fun o => decide (p0.rank < o.rank)) os w cw).2.1 -
            (advancePtr reach (fun o => decide (p0.rank < o.rank)) os w cw).2.2 p0.card1 -
            (advancePtr reach (fun o => decide (p0.rank < o.rank)) os w cw).2.2 p0.card2) * W))
        hP.2 hOs' hnd.2 p hp'
      have hpq : ∀ o ∈ os.takeWhile (fun o => decide (p0.rank < o.rank)),
          (fun o : RiverCombs => decide (p.rank < o.rank)) o = true := by
        intro o ho
        have h1 := List.mem_takeWhile_imp ho
        have h2 : p.rank ≤ p0.rank := hP.1 p hp'
        simp only [decide_eq_true_eq] at *
        omega
      have hsplit := filter_split (fun o : RiverCombs => decide (p.rank < o.rank))
        (fun o : RiverCombs => decide (p0.rank < o.rank)) os hpq
      rw [htf] at hsplit
      rw [winPassGo, hih, advancePtr_w, advancePtr_cw, advancePtr_cw, advancePtr_fst,
        htf, hsplit, sumReach_append, sumCard_append, sumCard_append]
      ring

/-- The loss pass: under rank-ascending inputs (the backwards walk of the
sorted lists), each player combo's payoff entry gains
`(losssum − card_losssum[c1] − card_losssum[c2]) · L` aggregated over
exactly the opponent combos of strictly smaller rank. -/
theorem lossPassGo_spec (L : ℚ) (reach : List ℚ) :
    ∀ (ps os : List RiverCombs) (w : ℚ) (cw : ℕ → ℚ) (pay : ℕ → ℚ),
      List.Pairwise (fun a b => a.rank ≤ b.rank) ps →
      List.Pairwise (fun a b => a.rank ≤ b.rank) os →
      (ps.map RiverCombs.reach_prob_index).Nodup →
      ∀ p ∈ ps, lossPassGo L reach ps os w cw pay p.reach_prob_index =
        pay p.reach_prob_index +
        ((w + sumReach reach (os.filter (fun o => decide (o.rank < p.rank))))
          - (cw p.card1 +
             sumCard reach (os.filter (fun o => decide (o.rank < p.rank))) p.card1)
          - (cw p.card2 +
             sumCard reach (os.filter (fun o => decide (o.rank < p.rank))) p.card2)) * L := by
  intro ps
  induction ps with
  | nil => intro os w cw pay _ _ _ p hp; cases hp
  | cons p0 ps ih =>
    intro os w cw pay hP hO hnd p hp
    rw [List.pairwise_cons] at hP
    simp only [List.map_cons, List.nodup_cons] at hnd
    have hmono : ∀ a b : RiverCombs, a.rank ≤ b.rank →
        decide (a.rank < p0.rank) = false → decide (b.rank < p0.rank) = false := by
      intro a b hab ha
      simp only [decide_eq_false_iff_not] at *
      omega
    have htf : os.takeWhile (fun o => decide (o.rank < p0.rank)) =
        os.filter (fun o => decide (o.rank < p0.rank)) :=
      takeWhile_eq_filter hmono os hO
    rcases List.mem_cons.mp hp with rfl | hp'
    · rw [lossPassGo, lossPassGo_untouched _ _ _ _ _ _ _ _ hnd.1, Function.update_same,
        advancePtr_w, advancePtr_cw, advancePtr_cw, htf]
    · have hOs' : List.Pairwise (fun a b : RiverCombs => a.rank ≤ b.rank)
          ((advancePtr reach (fun o => decide (o.rank < p0.rank)) os w cw).1) := by
        rw [advancePtr_fst]
        exact List.Pairwise.sublist (List.dropWhile_sublist _) hO
      have hih := ih (advancePtr reach (fun o => decide (o.rank < p0.rank)) os w cw).1
        (advancePtr reach (fun o => decide (o.rank < p0.rank)) os w cw).2.1
        (advancePtr reach (fun o => decide (o.rank < p0.rank)) os w cw).2.2
        (Function.update pay p0.reach_prob_index
          (pay p0.reach_prob_index +
            ((advancePtr reach (fun o => decide (o.rank < p0.rank)) os w cw).2.1 -
            (advancePtr reach (fun o => decide (o.rank < p0.rank)) os w cw).2.2 p0.card1 -
            (advancePtr reach (fun o => decide (o.rank < p0.rank)) os w cw).2.2 p0.card2) * L))
        hP.2 hOs' hnd.2 p hp'
      have hpq : ∀ o ∈ os.takeWhile (fun o => decide (o.rank < p0.rank)),
          (fun o : RiverCombs => decide (o.rank < p.rank)) o = true := by
        intro o ho
        have h1 := List.mem_takeWhile_imp ho
        have h2 : p0.rank ≤ p.rank := hP.1 p hp'
        simp only [decide_eq_true_eq] at *
        omega
      have hsplit := filter_split (fun o : RiverCombs => decide (o.rank < p.rank))
        (fun o : RiverCombs => decide (o.rank < p0.rank)) os hpq
      rw [htf] at hsplit
      have hne : p.reach_prob_index ≠ p0.reach_prob_index := by
        intro hc
        exact hnd.1 (hc ▸ List.mem_map.mpr ⟨p, hp', rfl⟩)
      rw [lossPassGo, hih, Function.update_noteq hne, advancePtr_w, advancePtr_cw,
        advancePtr_cw, advancePtr_fst, htf, hsplit, sumReach_append, sumCard_append,
        sumCard_append]
      ring

/-- C2: at a showdown node with win payoff `W > 0` and lose payoff
`L < 0`, given the rank-sorted combo lists (rank-descending, i.e.
weakest-first with lower rank = stronger) with distinct player payoff
indices, each player hand's payoff is `eff_win·W + eff_loss·L`, where
`eff_win` sums opponent reach over strictly worse-ranked opponent hands
minus the per-card blocker sums for the hand's two cards, `eff_loss` is
symmetric over strictly better-ranked hands, and equal-ranked (tied)
opponent hands belong to neither aggregate. -/
theorem claim_C2 (W L : ℚ) (player_combs oppo_combs : List RiverCombs) (reach : List ℚ)
    (_hW : 0 < W) (_hL : L < 0)
    (hP : List.Pairwise (fun a b => b.rank ≤ a.rank) player_combs)
    (hO : List.Pairwise (fun a b => b.rank ≤ a.rank) oppo_combs)
    (hnd : (player_combs.map RiverCombs.reach_prob_index).Nodup) :
    ∀ p ∈ player_combs,
      (showdownUtility W L player_combs oppo_combs reach p.reach_prob_index =
        (sumReach reach (oppo_combs.filter (fun o => decide (p.rank < o.rank)))
          - sumCard reach (oppo_combs.filter (fun o => decide (p.rank < o.rank))) p.card1
          - sumCard reach (oppo_combs.filter (fun o => decide (p.rank < o.rank))) p.card2)
            * W +
        (sumReach reach (oppo_combs.filter (fun o => decide (o.rank < p.rank)))
          - sumCard reach (oppo_combs.filter (fun o => decide (o.rank < p.rank))) p.card1
          - sumCard reach (oppo_combs.filter (fun o => decide (o.rank < p.rank))) p.card2)
            * L) ∧
      (∀ o ∈ oppo_combs, o.rank = p.rank →
        o ∉ oppo_combs.filter (fun o' => decide (p.rank < o'.rank)) ∧
        o ∉ oppo_combs.filter (fun o' => decide (o'.rank < p.rank))) := by
  intro p hp
  constructor
  · have hPrev : List.Pairwise (fun a b : RiverCombs => a.rank ≤ b.rank)
        player_combs.reverse := List.pairwise_reverse.mpr hP
    have hOrev : List.Pairwise (fun a b : RiverCombs => a.rank ≤ b.rank)
        oppo_combs.reverse := List.pairwise_reverse.mpr hO
    have hndrev : (player_combs.reverse.map RiverCombs.reach_prob_index).Nodup := by
      rw [List.map_reverse]
      exact List.nodup_reverse.mpr hnd
    rw [showdownUtility,
      lossPassGo_spec L reach player_combs.reverse oppo_combs.reverse 0 (fun _ => 0)
        _ hPrev hOrev hndrev p (List.mem_reverse.mpr hp),
      winPassGo_spec W reach player_combs oppo_combs 0 (fun _ => 0) (fun _ => 0)
        hP hO hnd p hp,
      List.filter_reverse, sumReach_reverse, sumCard_reverse, sumCard_reverse]
    ring
  · intro o ho heq
    constructor
    · rw [List.mem_filter]
      rintro ⟨-, hq⟩
      simp only [decide_eq_true_eq, heq] at hq
      omega
    · rw [List.mem_filter]
      rintro ⟨-, hq⟩
      simp only [decide_eq_true_eq, heq] at hq
      omega

/-- Witness for C2 at a concrete showdown: two player combos (ranks 4, 2)
against two opponent combos (ranks 5, 3) with reach `[1, 2]`, `W = 10`,
`L = −7`; the rank-4 hand beats the rank-5 combo and loses to the rank-3
combo. -/
theorem claim_C2_witness :
    showdownUtility 10 (-7) [⟨4, 4, 5, 0⟩, ⟨2, 6, 7, 1⟩]
      [⟨5, 0, 1, 0⟩, ⟨3, 2, 3, 1⟩] [1, 2]
      (⟨4, 4, 5, 0⟩ : RiverCombs).reach_prob_index =
    (sumReach [1, 2] (([⟨5, 0, 1, 0⟩, ⟨3, 2, 3, 1⟩] : List RiverCombs).filter
        (fun o => decide ((⟨4, 4, 5, 0⟩ : RiverCombs).rank < o.rank)))
      - sumCard [1, 2] (([⟨5, 0, 1, 0⟩, ⟨3, 2, 3, 1⟩] : List RiverCombs).filter
          (fun o => decide ((⟨4, 4, 5, 0⟩ : RiverCombs).rank < o.rank)))
          (⟨4, 4, 5, 0⟩ : RiverCombs).card1
      - sumCard [1, 2] (([⟨5, 0, 1, 0⟩, ⟨3, 2, 3, 1⟩] : List RiverCombs).filter
          (fun o => decide ((⟨4, 4, 5, 0⟩ : RiverCombs).rank < o.rank)))
          (⟨4, 4, 5, 0⟩ : RiverCombs).card2) * 10 +
    (sumReach [1, 2] (([⟨5, 0, 1, 0⟩, ⟨3, 2, 3, 1⟩] : List RiverCombs).filter
        (fun o => decide (o.rank < (⟨4, 4, 5, 0⟩ : RiverCombs).rank)))
      - sumCard [1, 2] (([⟨5, 0, 1, 0⟩, ⟨3, 2, 3, 1⟩] : List RiverCombs).filter
          (fun o => decide (o.rank < (⟨4, 4, 5, 0⟩ : RiverCombs).rank)))
          (⟨4, 4, 5, 0⟩ : RiverCombs).card1
      - sumCard [1, 2] (([⟨5, 0, 1, 0⟩, ⟨3, 2, 3, 1⟩] : List RiverCombs).filter
          (fun o => decide (o.rank < (⟨4, 4, 5, 0⟩ : RiverCombs).rank)))
          (⟨4, 4, 5, 0⟩ : RiverCombs).card2) * (-7) :=
  (claim_C2 10 (-7) [⟨4, 4, 5, 0⟩, ⟨2, 6, 7, 1⟩] [⟨5, 0, 1, 0⟩, ⟨3, 2, 3, 1⟩] [1, 2]
    (by norm_num) (by norm_num) (by decide) (by decide) (by decide)
    ⟨4, 4, 5, 0⟩ (by decide)).1
